import Mathlib

/-!
Shallow embedding of the `fantastic-snarks-homework` repository (Rust,
arkworks-based Merkle membership / card-commitment circuit).

The repository's own code (src/src/card.rs, src/src/merkle.rs,
src/src/constraints_showprice.rs, src/src/util.rs, src/arkworks/src/lib.rs,
src/arkworks/src/constraints.rs) is translated here.  The cryptographic
primitives it calls (the Pedersen hashes over Jubjub, the
`ByteDigestConverter`, field-element serialization, and the library Merkle
tree / `Path` / `PathVar`) live in external arkworks crates; the spec treats
them as pluggable primitives with stated contracts (fixed-width
serialization, capacity-bounded evaluation, native/circuit semantic
identity).  They are modelled as an abstract `HashCtx` bundle of total
functions plus the fixed-width contracts, and capacity-checked evaluation
wrappers mirror the library's failure behavior.
-/

/-- Abstract bundle of the cryptographic primitives the repository consumes
from arkworks.  `serF` models `CanonicalSerialize::serialize_uncompressed`
on a BLS12-381 scalar (32 bytes, little-endian); `pedersenHash` models the
underlying (capacity-unchecked) Pedersen CRH over Jubjub used as `LeafHash`;
`convert` models `ByteDigestConverter::convert` (uncompressed affine-point
serialization, 64 bytes), which per the spec's digest-converter contract is
bit-identical to the in-circuit `OutputVar::to_bytes`; `twoToOne` models the
underlying `TwoToOneHash`; `serInner` models uncompressed serialization of
an inner digest (64 bytes), used by `TwoToOneCRH::compress`.  Bytes are
modelled as natural numbers. -/
structure HashCtx (F Dl Di : Type) where
  serF : F → List Nat
  pedersenHash : List Nat → Dl
  convert : Dl → List Nat
  twoToOne : List Nat → List Nat → Di
  serInner : Di → List Nat
  serF_len : ∀ x, (serF x).length = 32
  convert_len : ∀ d, (convert d).length = 64
  serInner_len : ∀ d, (serInner d).length = 64

/-- `LeafHash` capacity in bits: `WINDOW_SIZE = 6` times `NUM_WINDOWS = 128`
(src/src/hash.rs, `LeafWindow`). -/
def leafCapacityBits : Nat := 6 * 128

/-- `TwoToOneHash` capacity in bits: `WINDOW_SIZE = 8` times
`NUM_WINDOWS = 144` (src/src/hash.rs, `TwoToOneWindow`). -/
def twoToOneCapacityBits : Nat := 8 * 144

/-- `LeafHash::evaluate`: fails exactly when the input exceeds the window
capacity (the arkworks Pedersen CRH aborts on over-long input; the spec
calls this a fatal configuration error). -/
def leafHashEval {F Dl Di : Type} (ctx : HashCtx F Dl Di) (input : List Nat) :
    Option Dl :=
  if input.length * 8 ≤ leafCapacityBits then some (ctx.pedersenHash input) else none

/-- `TwoToOneHash::evaluate` on two byte strings, with its capacity check. -/
def twoToOneEval {F Dl Di : Type} (ctx : HashCtx F Dl Di) (l r : List Nat) :
    Option Di :=
  if (l.length + r.length) * 8 ≤ twoToOneCapacityBits then some (ctx.twoToOne l r)
  else none

/-- `TwoToOneCRH::compress` on two inner digests: serialize both, then
evaluate the two-to-one hash.  Total, because two 64-byte serializations
(1024 bits) always fit the 1152-bit capacity. -/
def compress {F Dl Di : Type} (ctx : HashCtx F Dl Di) (a b : Di) : Di :=
  ctx.twoToOne (ctx.serInner a) (ctx.serInner b)

/-- On inner digests the checked evaluation never fails: it is `compress`. -/
theorem twoToOneEval_serInner {F Dl Di : Type} (ctx : HashCtx F Dl Di) (a b : Di) :
    twoToOneEval ctx (ctx.serInner a) (ctx.serInner b) = some (compress ctx a b) := by
  simp [twoToOneEval, compress, ctx.serInner_len, twoToOneCapacityBits]

--
-- Card and its commitment (src/src/card.rs)
--

/-- `Card` (src/src/card.rs): purchase price and serial number, both field
elements. -/
structure Card (F : Type) where
  purchase_price : F
  serial_num : F

/-- `Card::commit` (src/src/card.rs, lines 31-52): serialize `com_rand`,
then the card (its derived `CanonicalSerialize` writes `purchase_price`
then `serial_num`), hash the buffer with `LeafHash`, convert the digest to
bytes with `LeafInnerDigestConverter`, and cast into the 64-byte `Leaf`.
The internal `unwrap`s are modelled as `Option` failure. -/
def Card.commit {F Dl Di : Type} (ctx : HashCtx F Dl Di) (card : Card F)
    (com_rand : F) : Option (List Nat) :=
  let buf := ctx.serF com_rand ++ (ctx.serF card.purchase_price ++ ctx.serF card.serial_num)
  match leafHashEval ctx buf with
  | none => none
  | some h =>
    let bytes := ctx.convert h
    if bytes.length = 64 then some bytes else none

/-- Total form of the commitment pipeline: the hash of the 96-byte buffer
followed by the digest conversion.  Used to state what `Card.commit`
returns when it succeeds. -/
def commitBytes {F Dl Di : Type} (ctx : HashCtx F Dl Di) (card : Card F)
    (com_rand : F) : List Nat :=
  ctx.convert (ctx.pedersenHash
    (ctx.serF com_rand ++ (ctx.serF card.purchase_price ++ ctx.serF card.serial_num)))

/-- `Card.commit` always succeeds and returns `commitBytes`. -/
theorem Card.commit_eq_some {F Dl Di : Type} (ctx : HashCtx F Dl Di)
    (card : Card F) (com_rand : F) :
    Card.commit ctx card com_rand = some (commitBytes ctx card com_rand) := by
  unfold Card.commit commitBytes
  have hbuf : (ctx.serF com_rand ++
      (ctx.serF card.purchase_price ++ ctx.serF card.serial_num)).length = 96 := by
    simp [ctx.serF_len]
  simp [leafHashEval, hbuf, leafCapacityBits, ctx.convert_len]

/-- `CardVar` (src/src/card.rs): R1CS shadow of `Card`, fields `amount` and
`serial_num`. -/
structure CardVar (F : Type) where
  amount : F
  serial_num : F

/-- `SynthesisError` (ark-relations): the error cases the modelled code can
hit.  `assignmentMissing` is the structural missing-witness error; `other`
stands for the fatal capacity abort inside a gadget. -/
inductive SynthesisError where
  | assignmentMissing
  | other
deriving DecidableEq

/-- `CardVar::commit` (src/src/card.rs, lines 84-97), evaluated on the
concrete witness assignment: `com_rand.to_bytes()` then
`self.to_bytes()` (amount then serial), hash with `LeafHashGadget`, then
`hash.to_bytes()`.  Per the spec's native/circuit semantic-identity
contract, the gadget hash agrees with the native hash and the point
`to_bytes` agrees with the byte digest converter, so both are modelled by
the same `HashCtx` components. -/
def CardVar.commit {F Dl Di : Type} (ctx : HashCtx F Dl Di) (cv : CardVar F)
    (com_rand : F) : Except SynthesisError (List Nat) :=
  let com_rand_bytes := ctx.serF com_rand
  let card_bytes := ctx.serF cv.amount ++ ctx.serF cv.serial_num
  match leafHashEval ctx (com_rand_bytes ++ card_bytes) with
  | some h => .ok (ctx.convert h)
  | none => .error .other

--
-- Merkle authentication paths (arkworks `Path` / `PathVar`, consumed by
-- src/src/merkle.rs and the circuits)
--

/-- Modelled from the spec: the arkworks `Path` consumed through
`SimplePath` (src/src/merkle.rs).  An ordered sequence of sibling digests
from leaf level to root — the sibling leaf digest at the bottom, the inner
sibling digests above it — paired with the leaf index whose bits determine
left/right ordering at each level (spec section on authentication paths). -/
structure MPath (Dl Di : Type) where
  leafSiblingHash : Dl
  innerSiblings : List Di
  leafIndex : Nat
deriving DecidableEq

/-- Modelled from the spec: the upward loop of root recomputation.  At each
inner level, combine the running digest with the recorded sibling via
`compress`, on the side dictated by the current index bit, then halve the
index. -/
def goUp {F Dl Di : Type} (ctx : HashCtx F Dl Di) :
    Di → Nat → List Di → Di
  | acc, _, [] => acc
  | acc, i, s :: rest =>
    goUp ctx (if i % 2 = 0 then compress ctx acc s else compress ctx s acc) (i / 2) rest

/-- Modelled from the spec: root recomputation from a leaf digest and an
authentication path (`Path::verify`'s recomputation and
`PathVar::calculate_root`, semantically identical per the spec).  The
leaf-level pair is combined through the digest converter into the
two-to-one hash; inner levels use `compress`. -/
def calcRootFrom {F Dl Di : Type} (ctx : HashCtx F Dl Di) (leafDigest : Dl)
    (p : MPath Dl Di) : Di :=
  goUp ctx
    (if p.leafIndex % 2 = 0 then
      ctx.twoToOne (ctx.convert leafDigest) (ctx.convert p.leafSiblingHash)
    else
      ctx.twoToOne (ctx.convert p.leafSiblingHash) (ctx.convert leafDigest))
    (p.leafIndex / 2) p.innerSiblings

/-- Modelled from the spec: native `Path::verify` (spec authentication-path
verifier contract): hash the claimed leaf bytes (capacity-checked), walk the
path recomputing the root, and compare with the claimed root for exact
equality. -/
def pathVerify {F Dl Di : Type} [DecidableEq Di] (ctx : HashCtx F Dl Di)
    (root : Di) (leafBytes : List Nat) (p : MPath Dl Di) : Option Bool :=
  match leafHashEval ctx leafBytes with
  | none => none
  | some ld => some (decide (calcRootFrom ctx ld p = root))

/-- In-circuit `PathVar::calculate_root` on the concrete assignment,
modelled from the spec's native/circuit semantic-identity contract: same
recomputation, with the gadget's capacity abort surfaced as a synthesis
failure. -/
def calcRootVar {F Dl Di : Type} (ctx : HashCtx F Dl Di) (leafBytes : List Nat)
    (p : MPath Dl Di) : Except SynthesisError Di :=
  match leafHashEval ctx leafBytes with
  | none => .error .other
  | some ld => .ok (calcRootFrom ctx ld p)

--
-- Perfect Merkle trees (arkworks `MerkleTree`, consumed through
-- `SimpleMerkleTree`)
--

/-- Modelled from the spec: a complete binary tree of leaves, depth-indexed;
depth 0 is a single leaf byte string, depth `d+1` a pair of depth-`d`
subtrees. -/
def PT : Nat → Type
  | 0 => List Nat
  | d + 1 => PT d × PT d

/-- Modelled from the spec: the root digest of a tree of depth at least 1.
At the bottom level the two leaf digests pass through the digest converter
into the two-to-one hash; above that, inner digests combine via
`compress` — conversion applies at the leaf-to-inner boundary only. -/
def rootOfPT {F Dl Di : Type} (ctx : HashCtx F Dl Di) :
    (d : Nat) → PT (d + 1) → Di
  | 0, t =>
    ctx.twoToOne (ctx.convert (ctx.pedersenHash t.1)) (ctx.convert (ctx.pedersenHash t.2))
  | d + 1, t => compress ctx (rootOfPT ctx d t.1) (rootOfPT ctx d t.2)

/-- Leaf lookup in a perfect tree by index (high bit chooses the subtree). -/
def getLeafPT : (d : Nat) → PT d → Nat → List Nat
  | 0, t, _ => t
  | d + 1, t, i => if i < 2 ^ d then getLeafPT d t.1 i else getLeafPT d t.2 (i - 2 ^ d)

/-- Modelled from the spec: the inner sibling digests along the path for a
leaf index, ordered bottom-to-top. -/
def pathInners {F Dl Di : Type} (ctx : HashCtx F Dl Di) :
    (d : Nat) → PT (d + 1) → Nat → List Di
  | 0, _, _ => []
  | d + 1, t, i =>
    if i < 2 ^ (d + 1) then pathInners ctx d t.1 i ++ [rootOfPT ctx d t.2]
    else pathInners ctx d t.2 (i - 2 ^ (d + 1)) ++ [rootOfPT ctx d t.1]

/-- Modelled from the spec: the sibling leaf digest at the bottom of the
path for a leaf index. -/
def pathLeafSib {F Dl Di : Type} (ctx : HashCtx F Dl Di) :
    (d : Nat) → PT (d + 1) → Nat → Dl
  | 0, t, i => if i % 2 = 0 then ctx.pedersenHash t.2 else ctx.pedersenHash t.1
  | d + 1, t, i =>
    if i < 2 ^ (d + 1) then pathLeafSib ctx d t.1 i
    else pathLeafSib ctx d t.2 (i - 2 ^ (d + 1))

/-- Modelled from the spec: `MerkleTree::generate_proof` — the
authentication path of the leaf at `i`. -/
def genPath {F Dl Di : Type} (ctx : HashCtx F Dl Di) (d : Nat) (t : PT (d + 1))
    (i : Nat) : MPath Dl Di :=
  { leafSiblingHash := pathLeafSib ctx d t i
    innerSiblings := pathInners ctx d t i
    leafIndex := i }

/-- Modelled from the spec: `MerkleTree::new` — build a perfect tree of
depth `d` from a list of leaves, failing unless the list has exactly `2 ^ d`
entries (the power-of-two requirement). -/
def buildTree : (d : Nat) → List (List Nat) → Option (PT d)
  | 0, l => match l with
    | [x] => some x
    | _ => none
  | d + 1, l =>
    (buildTree d (l.take (2 ^ d))).bind fun tl =>
      (buildTree d (l.drop (2 ^ d))).map fun tr => (tl, tr)

--
-- Helper lemmas on the upward fold and on tree navigation
--

theorem goUp_append {F Dl Di : Type} (ctx : HashCtx F Dl Di) (xs : List Di)
    (s : Di) : ∀ (acc : Di) (i : Nat),
    goUp ctx acc i (xs ++ [s]) =
      (if i / 2 ^ xs.length % 2 = 0 then compress ctx (goUp ctx acc i xs) s
       else compress ctx s (goUp ctx acc i xs)) := by
  induction xs with
  | nil => intro acc i; simp [goUp]
  | cons x xs ih =>
    intro acc i
    have hdiv : i / 2 / 2 ^ xs.length = i / 2 ^ (xs.length + 1) := by
      rw [Nat.div_div_eq_div_mul, pow_succ, mul_comm]
    simp only [List.cons_append, goUp, List.append_eq, List.length_cons]
    rw [ih, hdiv]

theorem goUp_mod {F Dl Di : Type} (ctx : HashCtx F Dl Di) (xs : List Di) :
    ∀ (acc : Di) (i : Nat),
    goUp ctx acc i xs = goUp ctx acc (i % 2 ^ xs.length) xs := by
  induction xs with
  | nil => intro acc i; simp [goUp]
  | cons x xs ih =>
    intro acc i
    have h1 : i % 2 ^ (xs.length + 1) % 2 = i % 2 := by
      rw [Nat.mod_mod_of_dvd]
      exact dvd_pow_self 2 (Nat.succ_ne_zero _)
    have h2 : i % 2 ^ (xs.length + 1) / 2 = i / 2 % 2 ^ xs.length := by
      rw [pow_succ, mul_comm, Nat.mod_mul_right_div_self]
    simp only [goUp, List.length_cons, h1, h2]
    rw [ih]

theorem pathInners_length {F Dl Di : Type} (ctx : HashCtx F Dl Di) :
    ∀ (d : Nat) (t : PT (d + 1)) (i : Nat), (pathInners ctx d t i).length = d := by
  intro d
  induction d with
  | zero => intro t i; simp [pathInners]
  | succ d ih =>
    intro t i
    by_cases h : i < 2 ^ (d + 1) <;> simp [pathInners, h, ih]

theorem pathInners_left {F Dl Di : Type} (ctx : HashCtx F Dl Di) (d : Nat)
    (t : PT (d + 2)) (i : Nat) (h : i < 2 ^ (d + 1)) :
    pathInners ctx (d + 1) t i = pathInners ctx d t.1 i ++ [rootOfPT ctx d t.2] := by
  simp [pathInners, h]

theorem pathInners_right {F Dl Di : Type} (ctx : HashCtx F Dl Di) (d : Nat)
    (t : PT (d + 2)) (i : Nat) (h : ¬ i < 2 ^ (d + 1)) :
    pathInners ctx (d + 1) t i =
      pathInners ctx d t.2 (i - 2 ^ (d + 1)) ++ [rootOfPT ctx d t.1] := by
  simp [pathInners, h]

theorem pathLeafSib_left {F Dl Di : Type} (ctx : HashCtx F Dl Di) (d : Nat)
    (t : PT (d + 2)) (i : Nat) (h : i < 2 ^ (d + 1)) :
    pathLeafSib ctx (d + 1) t i = pathLeafSib ctx d t.1 i := by
  simp [pathLeafSib, h]

theorem pathLeafSib_right {F Dl Di : Type} (ctx : HashCtx F Dl Di) (d : Nat)
    (t : PT (d + 2)) (i : Nat) (h : ¬ i < 2 ^ (d + 1)) :
    pathLeafSib ctx (d + 1) t i = pathLeafSib ctx d t.2 (i - 2 ^ (d + 1)) := by
  simp [pathLeafSib, h]

theorem getLeafPT_left (d : Nat) (t : PT (d + 1)) (i : Nat) (h : i < 2 ^ d) :
    getLeafPT (d + 1) t i = getLeafPT d t.1 i := by
  simp [getLeafPT, h]

theorem getLeafPT_right (d : Nat) (t : PT (d + 1)) (i : Nat) (h : ¬ i < 2 ^ d) :
    getLeafPT (d + 1) t i = getLeafPT d t.2 (i - 2 ^ d) := by
  simp [getLeafPT, h]

/-- Unfolded form of `calcRootFrom` on a generated path. -/
theorem calcRootFrom_genPath_def {F Dl Di : Type} (ctx : HashCtx F Dl Di)
    (ld : Dl) (d : Nat) (t : PT (d + 1)) (i : Nat) :
    calcRootFrom ctx ld (genPath ctx d t i) =
      goUp ctx
        (if i % 2 = 0 then
          ctx.twoToOne (ctx.convert ld) (ctx.convert (pathLeafSib ctx d t i))
        else
          ctx.twoToOne (ctx.convert (pathLeafSib ctx d t i)) (ctx.convert ld))
        (i / 2) (pathInners ctx d t i) := rfl

/-- Completeness of root recomputation: for every perfect tree and every
in-range leaf index, recomputing the root from the leaf digest along the
generated authentication path returns the tree's root. -/
theorem calcRootFrom_genPath {F Dl Di : Type} (ctx : HashCtx F Dl Di) :
    ∀ (d : Nat) (t : PT (d + 1)) (i : Nat), i < 2 ^ (d + 1) →
    calcRootFrom ctx (ctx.pedersenHash (getLeafPT (d + 1) t i)) (genPath ctx d t i) =
      rootOfPT ctx d t := by
  intro d
  induction d with
  | zero =>
    intro t i hi
    interval_cases i <;>
      simp [calcRootFrom, genPath, goUp, pathInners, pathLeafSib, getLeafPT, rootOfPT]
  | succ d ih =>
    intro t i hi
    have hpow : 2 ^ (d + 2) = 2 ^ (d + 1) * 2 := by rw [pow_succ]
    have hpow1 : 2 ^ (d + 1) = 2 ^ d * 2 := by rw [pow_succ]
    rw [calcRootFrom_genPath_def]
    by_cases h : i < 2 ^ (d + 1)
    · -- leaf in the left subtree
      have htop : i / 2 / 2 ^ d = 0 := by
        rw [Nat.div_div_eq_div_mul, mul_comm]
        exact Nat.div_eq_of_lt (by rw [← pow_succ]; exact h)
      have hsub := ih t.1 i h
      rw [calcRootFrom_genPath_def] at hsub
      rw [pathInners_left ctx d t i h, pathLeafSib_left ctx d t i h,
        getLeafPT_left (d + 1) t i h, goUp_append, pathInners_length, htop]
      simp only [Nat.zero_mod, reduceIte]
      rw [hsub]
      rfl
    · -- leaf in the right subtree
      have hle : 2 ^ (d + 1) ≤ i := Nat.not_lt.mp h
      have hjlt : i - 2 ^ (d + 1) < 2 ^ (d + 1) := by omega
      have hpar : i % 2 = (i - 2 ^ (d + 1)) % 2 := by omega
      have h1 : i / 2 ^ (d + 1) = 1 := by
        have hp : 0 < 2 ^ (d + 1) := pow_pos (by norm_num) _
        have hij : i = (i - 2 ^ (d + 1)) + 2 ^ (d + 1) := by omega
        rw [hij, Nat.add_div_right _ hp, Nat.div_eq_of_lt hjlt]
      have htop : i / 2 / 2 ^ d % 2 = 1 := by
        rw [Nat.div_div_eq_div_mul, mul_comm, ← pow_succ, h1]
      have h2 : i / 2 = (i - 2 ^ (d + 1)) / 2 + 2 ^ d := by omega
      have hhalf : i / 2 % 2 ^ d = (i - 2 ^ (d + 1)) / 2 % 2 ^ d := by
        rw [h2, Nat.add_mod_right]
      have hsub := ih t.2 (i - 2 ^ (d + 1)) hjlt
      rw [calcRootFrom_genPath_def] at hsub
      rw [goUp_mod, pathInners_length] at hsub
      rw [pathInners_right ctx d t i h, pathLeafSib_right ctx d t i h,
        getLeafPT_right (d + 1) t i h, goUp_append, pathInners_length, htop]
      simp only [one_ne_zero, reduceIte]
      rw [goUp_mod ctx (pathInners ctx d t.2 (i - 2 ^ (d + 1))), pathInners_length,
        hpar, hhalf, hsub]
      rfl

theorem getD_take {α : Type} (l : List α) :
    ∀ (n i : Nat) (d : α), i < n → (l.take n).getD i d = l.getD i d := by
  induction l with
  | nil => intro n i d _; simp
  | cons x xs ih =>
    intro n i d hin
    cases n with
    | zero => omega
    | succ n =>
      cases i with
      | zero => simp
      | succ i => exact ih n i d (by omega)

theorem getD_drop {α : Type} (l : List α) :
    ∀ (n i : Nat) (d : α), (l.drop n).getD i d = l.getD (n + i) d := by
  induction l with
  | nil => intro n i d; simp
  | cons x xs ih =>
    intro n i d
    cases n with
    | zero => simp
    | succ n =>
      rw [show n + 1 + i = n + i + 1 by omega, List.getD_cons_succ]
      exact ih n i d

theorem buildTree_isSome : ∀ (d : Nat) (l : List (List Nat)),
    l.length = 2 ^ d → ∃ t, buildTree d l = some t := by
  intro d
  induction d with
  | zero =>
    intro l hl
    match l, hl with
    | [x], _ => exact ⟨x, rfl⟩
  | succ d ih =>
    intro l hl
    have hpow : 2 ^ (d + 1) = 2 ^ d * 2 := by rw [pow_succ]
    have h1 : (l.take (2 ^ d)).length = 2 ^ d := by
      rw [List.length_take]; omega
    have h2 : (l.drop (2 ^ d)).length = 2 ^ d := by
      rw [List.length_drop]; omega
    obtain ⟨tl, htl⟩ := ih _ h1
    obtain ⟨tr, htr⟩ := ih _ h2
    exact ⟨(tl, tr), by simp [buildTree, htl, htr]⟩

theorem getLeafPT_buildTree : ∀ (d : Nat) (l : List (List Nat)) (t : PT d),
    buildTree d l = some t → ∀ i, i < 2 ^ d → getLeafPT d t i = l.getD i [] := by
  intro d
  induction d with
  | zero =>
    intro l t hb i hi
    match l, hb with
    | [x], hb =>
      have hx : x = t := by simpa [buildTree] using hb
      interval_cases i
      simp [getLeafPT, ← hx]
  | succ d ih =>
    intro l t hb i hi
    simp only [buildTree, Option.bind_eq_some, Option.map_eq_some'] at hb
    obtain ⟨tl, htl, tr, htr, hpair⟩ := hb
    have hpow : 2 ^ (d + 1) = 2 ^ d * 2 := by rw [pow_succ]
    by_cases h : i < 2 ^ d
    · rw [getLeafPT_left d t i h, ← hpair]
      rw [ih _ tl htl i h]
      exact getD_take l (2 ^ d) i [] h
    · rw [getLeafPT_right d t i h, ← hpair]
      rw [ih _ tr htr (i - 2 ^ d) (by omega)]
      rw [getD_drop l (2 ^ d) (i - 2 ^ d) []]
      congr 1
      omega

--
-- The possession/show-price circuit (src/src/constraints_showprice.rs)
--

/-- The three allocation modes of the ark-relations allocation API:
embedded constant, public input, private witness. -/
inductive AllocKind where
  | constant
  | publicInput
  | privWitness
deriving DecidableEq

/-- One allocation performed by `generate_constraints`, tagged with the
allocated value, in the role it plays in the circuit. -/
inductive AllocEntry (F Dl Di : Type) where
  | leafParams
  | twoToOneParams
  | rootAlloc (r : Di)
  | serialAlloc (s : F)
  | leafBytesAlloc (b : List Nat)
  | priceAlloc (p : F)
  | comRandAlloc (c : F)
  | pathAlloc (p : MPath Dl Di)
deriving DecidableEq

/-- A value that an `enforce_equal` constraint compares: a byte vector
(`Vec<UInt8>`) or an inner digest (`RootVar`). -/
inductive CVal (Di : Type) where
  | bytes (b : List Nat)
  | inner (d : Di)
deriving DecidableEq

/-- The observable outcome of `generate_constraints`: the allocation trace
and the list of equality constraints, each carrying the concrete values of
its two sides under the instance's assignment. -/
structure R1CS (F Dl Di : Type) where
  allocs : List (AllocKind × AllocEntry F Dl Di)
  eqs : List (CVal Di × CVal Di)

/-- A constraint system is satisfied when every emitted equality holds on
the assigned values (`ConstraintSystem::is_satisfied`). -/
def R1CS.satisfied {F Dl Di : Type} (cs : R1CS F Dl Di) : Prop :=
  ∀ p ∈ cs.eqs, p.1 = p.2

/-- The allocation primitive: `new_input` / `new_witness` with a value
closure.  A missing assignment is the structural `AssignmentMissing`
synthesis error; a present value allocates successfully. -/
def newVar {α : Type} (v : Option α) : Except SynthesisError α :=
  match v with
  | some x => .ok x
  | none => .error .assignmentMissing

/-- `PossessionShowPriceCircuit` (src/src/constraints_showprice.rs): hash
parameters are carried by the ambient `HashCtx`; the struct fields are the
public inputs (root, leaf bytes, card serial number) and the private
witnesses (purchase price — allocated as a public input in this variant —
commitment randomness, authentication path). -/
structure PossessionShowPriceCircuit (F Dl Di : Type) where
  root : Di
  leaf : List Nat
  card_serial_num : F
  card_purchase_price : F
  card_com_rand : F
  auth_path : MPath Dl Di

/-- `PossessionShowPriceCircuit::generate_constraints`
(src/src/constraints_showprice.rs, lines 49-110), in source order:
allocate the two hash-parameter constants, the root as public input, the
serial number as public input, the leaf bytes as a witness vector
(`UInt8::new_witness_vec`), the purchase price as public input, the
commitment randomness and the authentication path as witnesses; then
CHECK 1 enforces `card_var.commit(..) == claimed leaf bytes` and CHECK 2
enforces `auth_path.calculate_root(.., leaf) == claimed root`. -/
def generate_constraints {F Dl Di : Type} (ctx : HashCtx F Dl Di)
    (c : PossessionShowPriceCircuit F Dl Di) :
    Except SynthesisError (R1CS F Dl Di) := do
  let claimed_root ← newVar (some c.root)
  let card_serial_num ← newVar (some c.card_serial_num)
  let claimed_card_com ← newVar (some c.leaf)
  let card_purchase_price ← newVar (some c.card_purchase_price)
  let com_rand ← newVar (some c.card_com_rand)
  let auth_path ← newVar (some c.auth_path)
  let card_var : CardVar F :=
    { amount := card_purchase_price, serial_num := card_serial_num }
  let computed_card_com ← CardVar.commit ctx card_var com_rand
  let computed_root ← calcRootVar ctx claimed_card_com auth_path
  pure
    { allocs :=
        [(.constant, .leafParams), (.constant, .twoToOneParams),
         (.publicInput, .rootAlloc claimed_root),
         (.publicInput, .serialAlloc card_serial_num),
         (.privWitness, .leafBytesAlloc claimed_card_com),
         (.publicInput, .priceAlloc card_purchase_price),
         (.privWitness, .comRandAlloc com_rand),
         (.privWitness, .pathAlloc auth_path)]
      eqs :=
        [(.bytes computed_card_com, .bytes claimed_card_com),
         (.inner computed_root, .inner claimed_root)] }

/-- Reduction of an `Except` bind on a success value. -/
theorem except_bind_ok {ε α β : Type} (a : α) (f : α → Except ε β) :
    (Except.ok a : Except ε α) >>= f = f a := rfl

/-- Reduction of an `Except` map on a success value. -/
theorem except_map_ok {ε α β : Type} (a : α) (f : α → β) :
    f <$> (Except.ok a : Except ε α) = Except.ok (f a) := rfl

/-- `pure` for `Except` is `ok`. -/
theorem except_pure {ε α : Type} (a : α) :
    (pure a : Except ε α) = Except.ok a := rfl

/-- `CardVar::commit` always succeeds on a concrete assignment: the hash
buffer is exactly 96 bytes, within the leaf-hash capacity. -/
theorem CardVar.commit_eq_ok {F Dl Di : Type} (ctx : HashCtx F Dl Di)
    (cv : CardVar F) (com_rand : F) :
    CardVar.commit ctx cv com_rand = .ok
      (commitBytes ctx { purchase_price := cv.amount, serial_num := cv.serial_num }
        com_rand) := by
  have hbuf : (ctx.serF com_rand ++
      (ctx.serF cv.amount ++ ctx.serF cv.serial_num)).length = 96 := by
    simp [ctx.serF_len]
  simp [CardVar.commit, commitBytes, leafHashEval, hbuf, leafCapacityBits]

/-- `calculate_root` succeeds whenever the leaf bytes fit the leaf-hash
capacity. -/
theorem calcRootVar_eq_ok {F Dl Di : Type} (ctx : HashCtx F Dl Di)
    (leafBytes : List Nat) (p : MPath Dl Di) (h : leafBytes.length ≤ 96) :
    calcRootVar ctx leafBytes p =
      .ok (calcRootFrom ctx (ctx.pedersenHash leafBytes) p) := by
  have hc : leafBytes.length * 8 ≤ leafCapacityBits := by
    simp only [leafCapacityBits]; omega
  simp [calcRootVar, leafHashEval, hc]

/-- What `generate_constraints` produces when the leaf bytes fit the leaf
hash capacity (in particular for the 64-byte `Leaf` the repository always
passes): success, with the two checks' concrete values. -/
theorem generate_constraints_eq {F Dl Di : Type} (ctx : HashCtx F Dl Di)
    (c : PossessionShowPriceCircuit F Dl Di) (hleaf : c.leaf.length ≤ 96) :
    generate_constraints ctx c = .ok
      { allocs :=
          [(.constant, .leafParams), (.constant, .twoToOneParams),
           (.publicInput, .rootAlloc c.root),
           (.publicInput, .serialAlloc c.card_serial_num),
           (.privWitness, .leafBytesAlloc c.leaf),
           (.publicInput, .priceAlloc c.card_purchase_price),
           (.privWitness, .comRandAlloc c.card_com_rand),
           (.privWitness, .pathAlloc c.auth_path)]
        eqs :=
          [(.bytes (commitBytes ctx
              { purchase_price := c.card_purchase_price,
                serial_num := c.card_serial_num } c.card_com_rand),
            .bytes c.leaf),
           (.inner (calcRootFrom ctx (ctx.pedersenHash c.leaf) c.auth_path),
            .inner c.root)] } := by
  simp only [generate_constraints, newVar, except_bind_ok,
    CardVar.commit_eq_ok, calcRootVar_eq_ok ctx c.leaf c.auth_path hleaf,
    except_map_ok, except_pure]

/-- Satisfaction of the produced system is equivalent to the two checks. -/
theorem generate_constraints_satisfied_char {F Dl Di : Type}
    (ctx : HashCtx F Dl Di) (c : PossessionShowPriceCircuit F Dl Di)
    (cs : R1CS F Dl Di) (hleaf : c.leaf.length ≤ 96)
    (hok : generate_constraints ctx c = .ok cs) :
    (cs.satisfied ↔
      (commitBytes ctx
          { purchase_price := c.card_purchase_price,
            serial_num := c.card_serial_num } c.card_com_rand = c.leaf ∧
        calcRootFrom ctx (ctx.pedersenHash c.leaf) c.auth_path = c.root)) := by
  rw [generate_constraints_eq ctx c hleaf] at hok
  cases hok
  constructor
  · intro hs
    constructor
    · have := hs _ (by simp : ((CVal.bytes (commitBytes ctx
        { purchase_price := c.card_purchase_price,
          serial_num := c.card_serial_num } c.card_com_rand), CVal.bytes c.leaf)) ∈ _)
      simpa using this
    · have := hs _ (by simp :
        ((CVal.inner (calcRootFrom ctx (ctx.pedersenHash c.leaf) c.auth_path),
          CVal.inner c.root)) ∈ _)
      simpa using this
  · rintro ⟨h1, h2⟩ p hp
    simp only [List.mem_cons, List.mem_singleton] at hp
    rcases hp with hp | hp | hp
    · subst hp; simpa using h1
    · subst hp; simpa using h2
    · simp at hp

--
-- Test fixtures (src/src/util.rs)
--

/-- An abstract pseudorandom generator: a seeding function and a step
producing one field element.  `ark_std::test_rng()` is `seedFrom` applied to
a fixed constant seed; a process-entropy-derived generator would seed from
the ambient entropy instead. -/
structure RngSpec (F S : Type) where
  seedFrom : Nat → S
  next : S → F × S

/-- `ark_std::test_rng()`: deterministic, seeded with a fixed constant,
ignoring all ambient process entropy. -/
def test_rng {F S : Type} (R : RngSpec F S) : S := R.seedFrom 0

/-- The sampling loop of `all_cards` (src/src/util.rs, lines 25-36):
each iteration draws a random card (`purchase_price` then `serial_num`,
its two fields in order) and then a random nonce. -/
def sampleCards {F S : Type} (R : RngSpec F S) : Nat → S → List (Card F × F)
  | 0, _ => []
  | n + 1, s =>
    let pp := R.next s
    let sn := R.next pp.2
    let nn := R.next sn.2
    ({ purchase_price := pp.1, serial_num := sn.1 }, nn.1) :: sampleCards R n nn.2

/-- `all_cards` (src/src/util.rs): deterministically creates 16 cards and
their nonces from the fixed-seed test generator.  The `entropy` argument
models the process randomness available at call time; `all_cards` ignores
it because it seeds from the fixed constant. -/
def all_cards {F S : Type} (R : RngSpec F S) (entropy : Nat) :
    List (Card F × F) :=
  let _ := entropy
  sampleCards R 16 (test_rng R)

theorem sampleCards_length {F S : Type} (R : RngSpec F S) :
    ∀ (n : Nat) (s : S), (sampleCards R n s).length = n := by
  intro n
  induction n with
  | zero => intro s; rfl
  | succ n ih => intro s; simp [sampleCards, ih]

theorem all_cards_length {F S : Type} (R : RngSpec F S) (entropy : Nat) :
    (all_cards R entropy).length = 16 := sampleCards_length R 16 _

/-- The leaf list built inside `gen_test_tree`: commit to every fixture
card with its nonce, collecting the `Option` results (an `unwrap` panic is
modelled as `none`). -/
def mapCommit {F Dl Di : Type} (ctx : HashCtx F Dl Di) :
    List (Card F × F) → Option (List (List Nat))
  | [] => some []
  | p :: rest =>
    match Card.commit ctx p.1 p.2, mapCommit ctx rest with
    | some l, some ls => some (l :: ls)
    | _, _ => none

theorem mapCommit_eq_some {F Dl Di : Type} (ctx : HashCtx F Dl Di)
    (l : List (Card F × F)) :
    mapCommit ctx l = some (l.map fun p => commitBytes ctx p.1 p.2) := by
  induction l with
  | nil => rfl
  | cons p rest ih => simp [mapCommit, Card.commit_eq_some, ih]

/-- `gen_test_tree` (src/src/util.rs, lines 39-49): commit to all fixture
cards and build the 16-leaf Merkle tree (depth 4). -/
def gen_test_tree {F S Dl Di : Type} (ctx : HashCtx F Dl Di)
    (R : RngSpec F S) (entropy : Nat) : Option (PT 4) :=
  (mapCommit ctx (all_cards R entropy)).bind (buildTree 4)

/-- `get_test_card` (src/src/util.rs, lines 59-61): the i-th card and
nonce; the out-of-range `unwrap` panic is modelled as `none`. -/
def get_test_card {F S : Type} (R : RngSpec F S) (entropy : Nat) (i : Nat) :
    Option (Card F × F) :=
  (all_cards R entropy).get? i

/-- `get_test_leaf` (src/src/util.rs, lines 53-56): recommit to the i-th
card and nonce. -/
def get_test_leaf {F S Dl Di : Type} (ctx : HashCtx F Dl Di) (R : RngSpec F S)
    (entropy : Nat) (i : Nat) : Option (List Nat) :=
  (get_test_card R entropy i).bind fun p => Card.commit ctx p.1 p.2

theorem gen_test_tree_isSome {F S Dl Di : Type} (ctx : HashCtx F Dl Di)
    (R : RngSpec F S) (entropy : Nat) :
    ∃ t, gen_test_tree ctx R entropy = some t := by
  obtain ⟨t, ht⟩ := buildTree_isSome 4
    ((all_cards R entropy).map fun p => commitBytes ctx p.1 p.2)
    (by simp [all_cards_length])
  exact ⟨t, by simp [gen_test_tree, mapCommit_eq_some, ht]⟩

/-- The tree produced by `gen_test_tree` has the fixture commitments as its
leaves. -/
theorem gen_test_tree_leaves {F S Dl Di : Type} (ctx : HashCtx F Dl Di)
    (R : RngSpec F S) (entropy : Nat) (t : PT 4)
    (ht : gen_test_tree ctx R entropy = some t) (i : Nat) (hi : i < 16)
    (card : Card F) (nonce : F)
    (hc : get_test_card R entropy i = some (card, nonce)) :
    getLeafPT 4 t i = commitBytes ctx card nonce := by
  simp only [gen_test_tree, mapCommit_eq_some, Option.some_bind] at ht
  have h16 : (16 : Nat) = 2 ^ 4 := by norm_num
  rw [getLeafPT_buildTree 4 _ t ht i (by omega)]
  have hget : ((all_cards R entropy).map fun p => commitBytes ctx p.1 p.2)[i]? =
      some (commitBytes ctx card nonce) := by
    rw [List.getElem?_map]
    simp only [get_test_card, List.get?_eq_getElem?] at hc
    rw [hc]
    rfl
  rw [List.getD_eq_getElem?_getD, hget]
  rfl

--
-- A concrete instantiation of the abstract primitives, used to evaluate
-- the development on explicit inputs
--

/-- Pad-or-truncate a byte list to 64 bytes. -/
def padTo64 (l : List Nat) : List Nat := (l ++ List.replicate 64 0).take 64

theorem padTo64_length (l : List Nat) : (padTo64 l).length = 64 := by
  simp only [padTo64, List.length_take, List.length_append, List.length_replicate]
  omega

/-- A concrete executable stand-in for the abstract primitive bundle, used
to evaluate the statements on explicit inputs. -/
def ctxN : HashCtx Nat (List Nat) (List Nat) where
  serF x := List.replicate 32 (x % 256)
  pedersenHash b := b
  convert d := padTo64 d
  twoToOne l r := l ++ r
  serInner d := padTo64 d
  serF_len := by intro x; simp
  convert_len := by intro d; exact padTo64_length d
  serInner_len := by intro d; exact padTo64_length d

/-- A concrete deterministic generator: states are naturals, stepping
returns the state and increments it. -/
def rngN : RngSpec Nat Nat where
  seedFrom e := e
  next s := (s, s + 1)

/-- A default perfect tree, used to name concrete trees by evaluation. -/
def ptDefault : (d : Nat) → PT d
  | 0 => []
  | d + 1 => (ptDefault d, ptDefault d)

/-- A concrete circuit instance with a 64-byte leaf. -/
def circN : PossessionShowPriceCircuit Nat (List Nat) (List Nat) where
  root := []
  leaf := List.replicate 64 0
  card_serial_num := 0
  card_purchase_price := 0
  card_com_rand := 0
  auth_path := { leafSiblingHash := [], innerSiblings := [], leafIndex := 0 }

--
-- Claims
--

/-- C1: For every circuit instance (hash params, root, leaf bytes, serial
number, purchase price, commitment randomness, authentication path) with
the 64-byte leaf the repository's `Leaf` type fixes, the constraint system
produced by `generate_constraints` is satisfied if and only if (1)
recomputing the commitment from the witnessed record fields and nonce
equals the claimed leaf bytes bit for bit, and (2) recomputing the Merkle
root from that leaf and the witnessed authentication path equals the
claimed root. -/
theorem generate_constraints_satisfied_iff {F Dl Di : Type}
    (ctx : HashCtx F Dl Di) (c : PossessionShowPriceCircuit F Dl Di)
    (hleaf : c.leaf.length = 64) :
    ∃ cs, generate_constraints ctx c = .ok cs ∧
      (cs.satisfied ↔
        (Card.commit ctx
            { purchase_price := c.card_purchase_price,
              serial_num := c.card_serial_num } c.card_com_rand = some c.leaf ∧
          calcRootFrom ctx (ctx.pedersenHash c.leaf) c.auth_path = c.root)) := by
  have h96 : c.leaf.length ≤ 96 := by omega
  refine ⟨_, generate_constraints_eq ctx c h96, ?_⟩
  rw [generate_constraints_satisfied_char ctx c _ h96 (generate_constraints_eq ctx c h96)]
  rw [Card.commit_eq_some]
  simp

/-- Witness for C1: the equivalence evaluated at the concrete instance. -/
theorem generate_constraints_satisfied_iff_witness :
    ∃ cs, generate_constraints ctxN circN = .ok cs ∧
      (cs.satisfied ↔
        (Card.commit ctxN
            { purchase_price := circN.card_purchase_price,
              serial_num := circN.card_serial_num } circN.card_com_rand =
              some circN.leaf ∧
          calcRootFrom ctxN (ctxN.pedersenHash circN.leaf) circN.auth_path =
            circN.root)) :=
  generate_constraints_satisfied_iff ctxN circN (by decide)

/-- C3: for every card, commitment randomness, and hash parameters, the
byte vector produced by the in-circuit `CardVar::commit` on the circuit
variables assigned those concrete values equals the byte string produced
by the native `Card::commit` on the same values. -/
theorem cardVar_commit_eq_native {F Dl Di : Type} (ctx : HashCtx F Dl Di)
    (card : Card F) (com_rand : F) :
    ∃ bs, CardVar.commit ctx
        { amount := card.purchase_price, serial_num := card.serial_num }
        com_rand = .ok bs ∧
      Card.commit ctx card com_rand = some bs :=
  ⟨commitBytes ctx card com_rand,
    CardVar.commit_eq_ok ctx _ com_rand,
    Card.commit_eq_some ctx card com_rand⟩

/-- Modelled from the spec: the reference commitment definition — serialize
the nonce, then the record's fields (purchase price then serial number) in
canonical byte order, feed the concatenation to the leaf hash, apply the
digest converter, and cast to the 64-byte Leaf width. -/
def commitSpecRef {F Dl Di : Type} (ctx : HashCtx F Dl Di) (card : Card F)
    (nonce : F) : List Nat :=
  (ctx.convert (ctx.pedersenHash
    (ctx.serF nonce ++ ctx.serF card.purchase_price ++ ctx.serF card.serial_num))).take 64

/-- C4: `Card::commit` agrees with the spec's reference definition; being
an equation between pure functions of `(card, nonce, params)`, it also
states that any two calls on the same arguments return identical bytes. -/
theorem card_commit_eq_specRef {F Dl Di : Type} (ctx : HashCtx F Dl Di)
    (card : Card F) (nonce : F) :
    Card.commit ctx card nonce = some (commitSpecRef ctx card nonce) := by
  rw [Card.commit_eq_some]
  unfold commitSpecRef commitBytes
  rw [List.append_assoc, List.take_of_length_le (le_of_eq (ctx.convert_len _))]

/-- C8: `Card::commit` is total: its hash input is exactly 96 bytes (32-byte
nonce plus two 32-byte field elements), which fits the leaf hash's capacity
of 6 × 128 = 768 bits = 96 bytes; the converted digest is exactly 64 bytes,
so the cast to the 64-byte `Leaf` succeeds; and the leaf hash evaluation
fails exactly when its input exceeds that capacity. -/
theorem card_commit_total {F Dl Di : Type} (ctx : HashCtx F Dl Di)
    (card : Card F) (com_rand : F) :
    (ctx.serF com_rand ++
      (ctx.serF card.purchase_price ++ ctx.serF card.serial_num)).length = 96 ∧
    96 * 8 ≤ leafCapacityBits ∧
    (∃ l, Card.commit ctx card com_rand = some l ∧ l.length = 64) ∧
    (∀ input : List Nat,
      leafHashEval ctx input = (none : Option Dl) ↔ leafCapacityBits < input.length * 8) := by
  refine ⟨by simp [ctx.serF_len], by simp [leafCapacityBits], ?_, ?_⟩
  · exact ⟨commitBytes ctx card com_rand, Card.commit_eq_some ctx card com_rand,
      ctx.convert_len _⟩
  · intro input
    unfold leafHashEval
    split
    · simp; omega
    · simp; omega

/-- C5: on an instance whose statement is false (for example a mauled
purchase price or a mauled root) but whose witness values are all present,
`generate_constraints` returns `Ok` — the falsity shows up only as the
produced constraint system being unsatisfied — while the synthesis error is
reserved for structural failures: allocating from a missing assignment is
the `AssignmentMissing` error. -/
theorem generate_constraints_ok_on_false_statement {F Dl Di : Type}
    (ctx : HashCtx F Dl Di) (c : PossessionShowPriceCircuit F Dl Di)
    (hleaf : c.leaf.length = 64)
    (hfalse : Card.commit ctx
        { purchase_price := c.card_purchase_price,
          serial_num := c.card_serial_num } c.card_com_rand ≠ some c.leaf ∨
      calcRootFrom ctx (ctx.pedersenHash c.leaf) c.auth_path ≠ c.root) :
    (∃ cs, generate_constraints ctx c = .ok cs ∧ ¬ cs.satisfied) ∧
    newVar (none : Option F) = .error SynthesisError.assignmentMissing := by
  have h96 : c.leaf.length ≤ 96 := by omega
  refine ⟨⟨_, generate_constraints_eq ctx c h96, ?_⟩, rfl⟩
  rw [generate_constraints_satisfied_char ctx c _ h96 (generate_constraints_eq ctx c h96)]
  rw [Card.commit_eq_some] at hfalse
  simp only [Ne, Option.some_inj] at hfalse
  tauto

/-- Witness for C5: the concrete instance has a mauled root (the claimed
root is empty while the recomputed root is not), synthesis succeeds, and
the produced system is unsatisfied. -/
theorem generate_constraints_ok_on_false_statement_witness :
    (∃ cs, generate_constraints ctxN circN = .ok cs ∧ ¬ cs.satisfied) ∧
    newVar (none : Option Nat) = .error SynthesisError.assignmentMissing :=
  generate_constraints_ok_on_false_statement ctxN circN (by decide)
    (Or.inr (by decide))

/-- C6 counterexample: at a concrete instance, `generate_constraints` does
not register the leaf bytes as a public input of the constraint system —
no allocation in the trace is a public-input allocation of the leaf
bytes. -/
theorem leaf_bytes_public_input_counterexample :
    ∃ cs, generate_constraints ctxN circN = .ok cs ∧
      (AllocKind.publicInput, AllocEntry.leafBytesAlloc circN.leaf) ∉ cs.allocs := by
  refine ⟨_, generate_constraints_eq ctxN circN (by decide), ?_⟩
  decide

/-- C6 (amended): in `PossessionShowPriceCircuit::generate_constraints`
the claimed leaf bytes are allocated as a private witness
(`UInt8::new_witness_vec`), not as a public input; the public inputs are
the root, the card serial number, and the purchase price. -/
theorem leaf_bytes_allocated_as_witness {F Dl Di : Type}
    (ctx : HashCtx F Dl Di) (c : PossessionShowPriceCircuit F Dl Di)
    (hleaf : c.leaf.length ≤ 96) :
    ∃ cs, generate_constraints ctx c = .ok cs ∧
      (AllocKind.privWitness, AllocEntry.leafBytesAlloc c.leaf) ∈ cs.allocs ∧
      (AllocKind.publicInput, AllocEntry.rootAlloc c.root) ∈ cs.allocs ∧
      (AllocKind.publicInput, AllocEntry.serialAlloc c.card_serial_num) ∈ cs.allocs ∧
      (AllocKind.publicInput, AllocEntry.priceAlloc c.card_purchase_price) ∈ cs.allocs ∧
      ∀ b, (AllocKind.publicInput, AllocEntry.leafBytesAlloc b) ∉ cs.allocs := by
  refine ⟨_, generate_constraints_eq ctx c hleaf, by simp, by simp, by simp, by simp, ?_⟩
  intro b
  simp

/-- Witness for the amended C6 at the concrete instance. -/
theorem leaf_bytes_allocated_as_witness_witness :
    ∃ cs, generate_constraints ctxN circN = .ok cs ∧
      (AllocKind.privWitness, AllocEntry.leafBytesAlloc circN.leaf) ∈ cs.allocs ∧
      (AllocKind.publicInput, AllocEntry.rootAlloc circN.root) ∈ cs.allocs ∧
      (AllocKind.publicInput, AllocEntry.serialAlloc circN.card_serial_num) ∈ cs.allocs ∧
      (AllocKind.publicInput, AllocEntry.priceAlloc circN.card_purchase_price) ∈ cs.allocs ∧
      ∀ b, (AllocKind.publicInput, AllocEntry.leafBytesAlloc b) ∉ cs.allocs :=
  leaf_bytes_allocated_as_witness ctxN circN (by decide)

/-- The circuit instance the tests' `setup` builds (constraints_showprice.rs
test module): the fixture tree, the card at index 7, its commitment as the
claimed leaf, the authentication path for index 7, and the tree's root. -/
def fixtureCircuit {F Dl Di : Type} (ctx : HashCtx F Dl Di) (t : PT 4)
    (card : Card F) (nonce : F) : PossessionShowPriceCircuit F Dl Di where
  root := rootOfPT ctx 3 t
  leaf := commitBytes ctx card nonce
  card_serial_num := card.serial_num
  card_purchase_price := card.purchase_price
  card_com_rand := nonce
  auth_path := genPath ctx 3 t 7

/-- C2: on the genuine fixture instance (record, nonce, correct commitment
leaf, correct authentication path, correct root) the constraint system is
satisfied; mauling the purchase price (to any value whose commitment
differs from the leaf — the hash-collision-freeness the test relies on) or
the root (to any value different from the true root) each independently
leaves synthesis succeeding but the system unsatisfied. -/
theorem possession_circuit_correct_and_sound {F S Dl Di : Type}
    (ctx : HashCtx F Dl Di) (R : RngSpec F S) (e : Nat) (t : PT 4)
    (ht : gen_test_tree ctx R e = some t) (card : Card F) (nonce : F)
    (hc : get_test_card R e 7 = some (card, nonce)) :
    (∃ cs, generate_constraints ctx (fixtureCircuit ctx t card nonce) = .ok cs ∧
      cs.satisfied) ∧
    (∀ p', commitBytes ctx { purchase_price := p', serial_num := card.serial_num }
        nonce ≠ commitBytes ctx card nonce →
      ∃ cs, generate_constraints ctx
          { fixtureCircuit ctx t card nonce with card_purchase_price := p' } = .ok cs ∧
        ¬ cs.satisfied) ∧
    (∀ r', r' ≠ rootOfPT ctx 3 t →
      ∃ cs, generate_constraints ctx
          { fixtureCircuit ctx t card nonce with root := r' } = .ok cs ∧
        ¬ cs.satisfied) := by
  have h64 : (commitBytes ctx card nonce).length = 64 := ctx.convert_len _
  have hlen : (commitBytes ctx card nonce).length ≤ 96 := by omega
  have hleafpt : getLeafPT 4 t 7 = commitBytes ctx card nonce :=
    gen_test_tree_leaves ctx R e t ht 7 (by norm_num) card nonce hc
  have hroot : calcRootFrom ctx (ctx.pedersenHash (commitBytes ctx card nonce))
      (genPath ctx 3 t 7) = rootOfPT ctx 3 t := by
    rw [← hleafpt]
    exact calcRootFrom_genPath ctx 3 t 7 (by norm_num)
  refine ⟨?_, ?_, ?_⟩
  · refine ⟨_, generate_constraints_eq ctx _ hlen, ?_⟩
    rw [generate_constraints_satisfied_char ctx _ _ hlen
      (generate_constraints_eq ctx _ hlen)]
    exact ⟨rfl, hroot⟩
  · intro p' hp
    refine ⟨_, generate_constraints_eq ctx _ hlen, ?_⟩
    rw [generate_constraints_satisfied_char ctx _ _ hlen
      (generate_constraints_eq ctx _ hlen)]
    rintro ⟨h1, _⟩
    exact hp h1
  · intro r' hr
    refine ⟨_, generate_constraints_eq ctx _ hlen, ?_⟩
    rw [generate_constraints_satisfied_char ctx _ _ hlen
      (generate_constraints_eq ctx _ hlen)]
    rintro ⟨_, h2⟩
    exact hr (hroot ▸ h2.symm)

/-- The concrete fixture tree for the concrete primitive bundle. -/
def tFixtureN : PT 4 := (gen_test_tree ctxN rngN 0).getD (ptDefault 4)

/-- The concrete fixture card at index 7. -/
def cardN : Card Nat :=
  ((all_cards rngN 0).getD 7 ({ purchase_price := 0, serial_num := 0 }, 0)).1

/-- The concrete fixture nonce at index 7. -/
def nonceN : Nat :=
  ((all_cards rngN 0).getD 7 ({ purchase_price := 0, serial_num := 0 }, 0)).2

/-- Witness for C2: the correctness and soundness statement evaluated on
the concrete fixture tree and card. -/
theorem possession_circuit_correct_and_sound_witness :
    (∃ cs, generate_constraints ctxN (fixtureCircuit ctxN tFixtureN cardN nonceN) =
        .ok cs ∧ cs.satisfied) ∧
    (∀ p', commitBytes ctxN { purchase_price := p', serial_num := cardN.serial_num }
        nonceN ≠ commitBytes ctxN cardN nonceN →
      ∃ cs, generate_constraints ctxN
          { fixtureCircuit ctxN tFixtureN cardN nonceN with card_purchase_price := p' } =
          .ok cs ∧ ¬ cs.satisfied) ∧
    (∀ r', r' ≠ rootOfPT ctxN 3 tFixtureN →
      ∃ cs, generate_constraints ctxN
          { fixtureCircuit ctxN tFixtureN cardN nonceN with root := r' } = .ok cs ∧
        ¬ cs.satisfied) :=
  possession_circuit_correct_and_sound ctxN rngN 0 tFixtureN (by rfl) cardN nonceN
    (by rfl)

/-- The eight byte-string leaves of the library test
(src/arkworks/src/lib.rs `test_merkle_tree` and
src/arkworks/src/constraints.rs soundness test): the ASCII bytes of
"1", "2", "3", "10", "9", "17", "70", "45". -/
def leaves8 : List (List Nat) :=
  [[49], [50], [51], [49, 48], [57], [49, 55], [55, 48], [52, 53]]

/-- The mutated leaf list of the soundness test: the first leaf changed to
"4". -/
def leaves8m : List (List Nat) :=
  [[52], [50], [51], [49, 48], [57], [49, 55], [55, 48], [52, 53]]

/-- C7: build a tree from the 8 byte-string leaves and the mutated tree;
generate the authentication path for index 4 (leaf "9"); verification of
that leaf and path against the tree's own root returns true, and against
the mutated tree's root (distinct from the true root, as hash
collision-freeness on this input guarantees) returns false. -/
theorem merkle_eight_leaf_scenario {F Dl Di : Type} [DecidableEq Di]
    (ctx : HashCtx F Dl Di) (t tm : PT 3)
    (ht : buildTree 3 leaves8 = some t) (_htm : buildTree 3 leaves8m = some tm)
    (hneq : rootOfPT ctx 2 tm ≠ rootOfPT ctx 2 t) :
    pathVerify ctx (rootOfPT ctx 2 t) [57] (genPath ctx 2 t 4) = some true ∧
    pathVerify ctx (rootOfPT ctx 2 tm) [57] (genPath ctx 2 t 4) = some false := by
  have hleaf : getLeafPT 3 t 4 = [57] := by
    rw [getLeafPT_buildTree 3 leaves8 t ht 4 (by norm_num)]
    rfl
  have hcalc : calcRootFrom ctx (ctx.pedersenHash [57]) (genPath ctx 2 t 4) =
      rootOfPT ctx 2 t := by
    rw [← hleaf]
    exact calcRootFrom_genPath ctx 2 t 4 (by norm_num)
  have hdec : decide (rootOfPT ctx 2 t = rootOfPT ctx 2 tm) = false :=
    decide_eq_false fun h => hneq h.symm
  constructor
  · simp [pathVerify, leafHashEval, leafCapacityBits, hcalc]
  · simp [pathVerify, leafHashEval, leafCapacityBits, hcalc, hdec]

/-- The concrete 8-leaf tree. -/
def t8N : PT 3 := (buildTree 3 leaves8).getD (ptDefault 3)

/-- The concrete mutated 8-leaf tree. -/
def t8mN : PT 3 := (buildTree 3 leaves8m).getD (ptDefault 3)

/-- Witness for C7: the scenario evaluated on the concrete trees and
primitives, where the two roots indeed differ. -/
theorem merkle_eight_leaf_scenario_witness :
    pathVerify ctxN (rootOfPT ctxN 2 t8N) [57] (genPath ctxN 2 t8N 4) = some true ∧
    pathVerify ctxN (rootOfPT ctxN 2 t8mN) [57] (genPath ctxN 2 t8N 4) = some false :=
  merkle_eight_leaf_scenario ctxN t8N t8mN (by rfl) (by rfl) (by decide)

/-- C9: fixture generation is deterministic across runs: whatever ambient
process entropy two invocations see, `all_cards` produces the same 16
(card, nonce) pairs, `get_test_card` the same card, `gen_test_tree` the
same tree (hence the same root), and `get_test_leaf` the same leaf, which
is the commitment of the corresponding fixture card. -/
theorem fixture_generation_deterministic {F S Dl Di : Type}
    (ctx : HashCtx F Dl Di) (R : RngSpec F S) (e1 e2 i : Nat) (hi : i < 16) :
    all_cards R e1 = all_cards R e2 ∧
    (all_cards R e1).length = 16 ∧
    get_test_card R e1 i = get_test_card R e2 i ∧
    gen_test_tree ctx R e1 = gen_test_tree ctx R e2 ∧
    ∃ card nonce, get_test_card R e1 i = some (card, nonce) ∧
      get_test_leaf ctx R e1 i = some (commitBytes ctx card nonce) ∧
      get_test_leaf ctx R e2 i = some (commitBytes ctx card nonce) := by
  have hlen : (all_cards R e1).length = 16 := all_cards_length R e1
  have hsome : i < (all_cards R e1).length := by omega
  refine ⟨rfl, hlen, rfl, rfl, ((all_cards R e1).get ⟨i, hsome⟩).1,
    ((all_cards R e1).get ⟨i, hsome⟩).2, ?_, ?_, ?_⟩
  · rw [get_test_card, List.get?_eq_getElem?, List.getElem?_eq_getElem hsome]
    rfl
  · rw [get_test_leaf, get_test_card, List.get?_eq_getElem?,
      List.getElem?_eq_getElem hsome, Option.some_bind, Card.commit_eq_some]
    rfl
  · rw [get_test_leaf, get_test_card, List.get?_eq_getElem?]
    rw [show all_cards R e2 = all_cards R e1 from rfl,
      List.getElem?_eq_getElem hsome, Option.some_bind, Card.commit_eq_some]
    rfl

/-- Witness for C9: determinism evaluated at the concrete generator, two
different entropies and index 7. -/
theorem fixture_generation_deterministic_witness :
    all_cards rngN 0 = all_cards rngN 1 ∧
    (all_cards rngN 0).length = 16 ∧
    get_test_card rngN 0 7 = get_test_card rngN 1 7 ∧
    gen_test_tree ctxN rngN 0 = gen_test_tree ctxN rngN 1 ∧
    ∃ card nonce, get_test_card rngN 0 7 = some (card, nonce) ∧
      get_test_leaf ctxN rngN 0 7 = some (commitBytes ctxN card nonce) ∧
      get_test_leaf ctxN rngN 1 7 = some (commitBytes ctxN card nonce) :=
  fixture_generation_deterministic ctxN rngN 0 1 7 (by decide)

/-- C10: `get_test_card` and `get_test_leaf` succeed exactly when the index
is below 16, the number of fixture cards; for any larger index the lookup
into the 16-element card list fails (the `unwrap` panic, modelled as
`none`). -/
theorem get_test_fixture_isSome_iff {F S Dl Di : Type} (ctx : HashCtx F Dl Di)
    (R : RngSpec F S) (e i : Nat) :
    ((get_test_card R e i).isSome ↔ i < 16) ∧
    ((get_test_leaf ctx R e i).isSome ↔ i < 16) := by
  have hlen : (all_cards R e).length = 16 := all_cards_length R e
  have hcard : (get_test_card R e i).isSome ↔ i < 16 := by
    rw [get_test_card, List.get?_eq_getElem?]
    constructor
    · intro h
      obtain ⟨a, ha⟩ := Option.isSome_iff_exists.mp h
      have := (List.getElem?_eq_some.mp ha).1
      omega
    · intro h
      exact Option.isSome_iff_exists.mpr ⟨_, List.getElem?_eq_getElem (by omega)⟩
  have hleaf : (get_test_leaf ctx R e i).isSome = (get_test_card R e i).isSome := by
    rcases h : get_test_card R e i with _ | p
    · simp [get_test_leaf, h]
    · simp [get_test_leaf, h, Card.commit_eq_some]
  exact ⟨hcard, by rw [hleaf]; exact hcard⟩
